import Mathlib

/-!
Shallow embedding of lighthouse's per-epoch crosslink winning-root selection
(`eth2/state_processing/src/per_epoch_processing/winning_root.rs`) and of
`PublicKey::ssz_decode` (`eth2/utils/bls/src/public_key.rs`), together with
theorems settling the specification claims about them.
-/

namespace Lighthouse

/-- A 256-bit hash value (`Hash256`, i.e. `H256`), modelled as its list of bytes,
most significant byte first. -/
abbrev Hash256 := List Nat

/-- The strict order `<` on `Hash256` used by the Rust code: the derived
lexicographic ordering on the underlying byte array (first differing byte decides,
a strict prefix is smaller). -/
def hashLt : Hash256 → Hash256 → Bool
  | [], [] => false
  | [], _ :: _ => true
  | _ :: _, [] => false
  | a :: as, b :: bs =>
    if a < b then true
    else if b < a then false
    else hashLt as bs

/-- The value of a byte list read as a big-endian unsigned integer. -/
def bytesToNat : List Nat → Nat
  | [] => 0
  | b :: bs => b * 256 ^ bs.length + bytesToNat bs

/-- The fields of `AttestationData` read by this core: the shard number and the
claimed crosslink data root. -/
structure AttestationData where
  shard : Nat
  crosslink_data_root : Hash256
deriving DecidableEq

/-- A `PendingAttestation`: attestation data plus the participation bitfield. -/
structure PendingAttestation where
  data : AttestationData
  aggregation_bitfield : List Bool
deriving DecidableEq

/-- The error type returned by the state lookups (`BeaconStateError`), kept
abstract as an error code. -/
structure BeaconStateError where
  code : Nat
deriving DecidableEq

/-- Modelled from the spec: the `BeaconState` (with the `ChainSpec` folded in) is
consumed only through two external collaborators whose implementations are outside
this core: the balance lookup `get_effective_balance` (total) and the
committee/participation lookup `get_attestation_participants` (fallible). -/
structure BeaconState where
  get_effective_balance : Nat → Nat
  get_attestation_participants :
    AttestationData → List Bool → Except BeaconStateError (List Nat)

/-- The `WinningRoot` candidate record. -/
structure WinningRoot where
  crosslink_data_root : Hash256
  attesting_validator_indices : List Nat
  total_attesting_balance : Nat
deriving DecidableEq

/-- `WinningRoot::is_better_than`: higher `total_attesting_balance` wins, ties are
broken by favouring the lower `crosslink_data_root` value. -/
def WinningRoot.is_better_than (self other : WinningRoot) : Bool :=
  if other.total_attesting_balance < self.total_attesting_balance then
    true
  else if self.total_attesting_balance = other.total_attesting_balance then
    hashLt self.crosslink_data_root other.crosslink_data_root
  else
    false

/-- The loop body of `get_attesting_validator_indices`, iterating the already
concatenated record list (current epoch first): a record matching both the shard
and the root has its participation expansion appended; a failing lookup aborts. -/
def attesting_indices_loop (state : BeaconState) (shard : Nat)
    (crosslink_data_root : Hash256) :
    List PendingAttestation → Except BeaconStateError (List Nat)
  | [] => .ok []
  | a :: rest =>
    if a.data.shard = shard ∧ a.data.crosslink_data_root = crosslink_data_root then do
      let ps ← state.get_attestation_participants a.data a.aggregation_bitfield
      let tail ← attesting_indices_loop state shard crosslink_data_root rest
      .ok (ps ++ tail)
    else
      attesting_indices_loop state shard crosslink_data_root rest

/-- `get_attesting_validator_indices`: all indices which voted for a given
crosslink, iterating the current-epoch list chained with the previous-epoch list.
May contain duplicates. -/
def get_attesting_validator_indices (state : BeaconState) (shard : Nat)
    (current_epoch_attestations previous_epoch_attestations : List PendingAttestation)
    (crosslink_data_root : Hash256) : Except BeaconStateError (List Nat) :=
  attesting_indices_loop state shard crosslink_data_root
    (current_epoch_attestations ++ previous_epoch_attestations)

/-- The balance fold of `winning_root`:
`fold(0, |acc, i| acc + state.get_effective_balance(*i, spec))`, taken in
unbounded arithmetic. The source computes in `u64`; `total_balance_u64` below is
the same fold with that wrapping, and the two agree exactly when the per
occurrence sum stays below `2 ^ 64`. -/
def total_balance (state : BeaconState) (indices : List Nat) : Nat :=
  indices.foldl (fun acc i => acc + state.get_effective_balance i) 0

/-- The `u64` modulus: `total_attesting_balance` is a 64-bit unsigned integer in
the source. -/
def U64_MOD : Nat := 2 ^ 64

/-- The balance fold of `winning_root` with the source's `u64` arithmetic
(release-build wrapping semantics): each addition reduces modulo `2 ^ 64`. -/
def total_balance_u64 (state : BeaconState) (indices : List Nat) : Nat :=
  indices.foldl (fun acc i => (acc + state.get_effective_balance i) % U64_MOD) 0

/-- One iteration of the `winning_root` loop builds this candidate for a root:
the attesting indices, their summed balance, and the root itself. -/
def candidate (state : BeaconState) (shard : Nat)
    (current_epoch_attestations previous_epoch_attestations : List PendingAttestation)
    (crosslink_data_root : Hash256) : Except BeaconStateError WinningRoot := do
  let attesting_validator_indices ← get_attesting_validator_indices state shard
    current_epoch_attestations previous_epoch_attestations crosslink_data_root
  .ok ⟨crosslink_data_root, attesting_validator_indices,
    total_balance state attesting_validator_indices⟩

/-- The winner update of the `winning_root` loop: replace the current winner when
the candidate `is_better_than` it, and adopt the candidate when there is none. -/
def updateBest (acc : Option WinningRoot) (c : WinningRoot) : Option WinningRoot :=
  match acc with
  | some winner => if c.is_better_than winner then some c else some winner
  | none => some c

/-- The `winning_root` loop over an enumeration of the distinct candidate roots. -/
def winning_root_loop (state : BeaconState) (shard : Nat)
    (current_epoch_attestations previous_epoch_attestations : List PendingAttestation)
    (acc : Option WinningRoot) :
    List Hash256 → Except BeaconStateError (Option WinningRoot)
  | [] => .ok acc
  | r :: rest => do
    let c ← candidate state shard current_epoch_attestations
      previous_epoch_attestations r
    winning_root_loop state shard current_epoch_attestations
      previous_epoch_attestations (updateBest acc c) rest

/-- The contents of the `HashSet` of candidate roots, as a duplicate-free list:
the `crosslink_data_root` of every record (previous epoch chained with current
epoch) whose shard matches, deduplicated. -/
def crosslink_data_roots (shard : Nat)
    (current_epoch_attestations previous_epoch_attestations : List PendingAttestation) :
    List Hash256 :=
  ((previous_epoch_attestations ++ current_epoch_attestations).filterMap fun a =>
    if a.data.shard = shard then some a.data.crosslink_data_root else none).dedup

/-- `enum` is a possible iteration order of the `HashSet` of candidate roots:
duplicate-free and holding exactly the matching roots. -/
abbrev valid_enum (shard : Nat)
    (current_epoch_attestations previous_epoch_attestations : List PendingAttestation)
    (enum : List Hash256) : Prop :=
  enum.Nodup ∧
    (∀ r ∈ enum,
      r ∈ crosslink_data_roots shard current_epoch_attestations
        previous_epoch_attestations) ∧
    (∀ r ∈ crosslink_data_roots shard current_epoch_attestations
        previous_epoch_attestations, r ∈ enum)

/-- `winning_root`, with the iteration order of the `HashSet` of distinct candidate
roots made explicit as the parameter `enum` (the Rust `HashSet` iterates its
elements in an unspecified order; theorems quantify over every `valid_enum`). -/
def winning_root (state : BeaconState) (shard : Nat)
    (current_epoch_attestations previous_epoch_attestations : List PendingAttestation)
    (enum : List Hash256) : Except BeaconStateError (Option WinningRoot) :=
  winning_root_loop state shard current_epoch_attestations
    previous_epoch_attestations none enum

/-- Modelled from the spec: the byte length of an SSZ-encoded BLS public key,
`BLS_PUBLIC_KEY_BYTE_SIZE`, a positive constant defined outside this core. -/
def BLS_PUBLIC_KEY_BYTE_SIZE : Nat := 48

/-- `ssz::DecodeError`. -/
inductive DecodeError where
  | TooShort
  | TooLong
  | Invalid
deriving DecidableEq

/-- Modelled from the spec: the raw public key of the external `bls_aggregates`
crate is opaque to this core; only the bytes it was parsed from are kept. -/
structure RawPublicKey where
  bytes : List Nat
deriving DecidableEq

/-- A BLS public key: a wrapper upon the raw base type. -/
structure PublicKey where
  raw : RawPublicKey
deriving DecidableEq

/-- `PublicKey::ssz_decode`. The external parser `RawPublicKey::from_bytes` is the
parameter `from_bytes`; the code maps its failure to `DecodeError::TooShort`.
Mirrors: length guard, parse of `bytes[i..(i + BLS_PUBLIC_KEY_BYTE_SIZE)]`, and
the returned next offset. -/
def PublicKey.ssz_decode (from_bytes : List Nat → Option RawPublicKey)
    (bytes : List Nat) (i : Nat) : Except DecodeError (PublicKey × Nat) :=
  if bytes.length - i < BLS_PUBLIC_KEY_BYTE_SIZE then
    .error .TooShort
  else
    match from_bytes ((bytes.drop i).take BLS_PUBLIC_KEY_BYTE_SIZE) with
    | none => .error .TooShort
    | some raw_sig => .ok (⟨raw_sig⟩, i + BLS_PUBLIC_KEY_BYTE_SIZE)

/-! ### Properties of the hash ordering -/

theorem hashLt_irrefl (a : Hash256) : hashLt a a = false := by
  induction a with
  | nil => rfl
  | cons x xs ih => simp [hashLt, ih]

theorem hashLt_asymm {a : Hash256} : ∀ {b : Hash256},
    hashLt a b = true → hashLt b a = false := by
  induction a with
  | nil =>
    intro b h
    cases b with
    | nil => simp [hashLt] at h
    | cons y ys => rfl
  | cons x xs ih =>
    intro b h
    cases b with
    | nil => simp [hashLt] at h
    | cons y ys =>
      simp only [hashLt] at h ⊢
      by_cases hxy : x < y
      · simp [show ¬ y < x by omega, hxy]
      · by_cases hyx : y < x
        · simp [hxy, hyx] at h
        · simp only [hxy, hyx, if_false] at h
          simp [hxy, hyx, ih h]

theorem hashLt_connex {a : Hash256} : ∀ {b : Hash256},
    a ≠ b → hashLt a b = true ∨ hashLt b a = true := by
  induction a with
  | nil =>
    intro b hne
    cases b with
    | nil => exact absurd rfl hne
    | cons y ys => exact Or.inl rfl
  | cons x xs ih =>
    intro b hne
    cases b with
    | nil => exact Or.inr rfl
    | cons y ys =>
      by_cases hxy : x < y
      · exact Or.inl (by simp [hashLt, hxy])
      · by_cases hyx : y < x
        · exact Or.inr (by simp [hashLt, hyx])
        · have hxyeq : x = y := by omega
          subst hxyeq
          have htl : xs ≠ ys := fun h => hne (by rw [h])
          rcases ih htl with h | h
          · exact Or.inl (by simp [hashLt, h])
          · exact Or.inr (by simp [hashLt, h])

theorem hashLt_trans {a : Hash256} : ∀ {b c : Hash256},
    hashLt a b = true → hashLt b c = true → hashLt a c = true := by
  induction a with
  | nil =>
    intro b c hab hbc
    cases b with
    | nil => simp [hashLt] at hab
    | cons y ys =>
      cases c with
      | nil => simp [hashLt] at hbc
      | cons z zs => rfl
  | cons x xs ih =>
    intro b c hab hbc
    cases b with
    | nil => simp [hashLt] at hab
    | cons y ys =>
      cases c with
      | nil => simp [hashLt] at hbc
      | cons z zs =>
        simp only [hashLt] at hab hbc ⊢
        by_cases hxy : x < y
        · by_cases hyz : y < z
          · simp [show x < z by omega]
          · by_cases hzy : z < y
            · simp [hyz, hzy] at hbc
            · have hyzeq : y = z := by omega
              simp [show x < z by omega]
        · by_cases hyx : y < x
          · simp [hxy, hyx] at hab
          · simp only [hxy, hyx, if_false] at hab
            by_cases hyz : y < z
            · simp [show x < z by omega]
            · by_cases hzy : z < y
              · simp [hyz, hzy] at hbc
              · simp only [hyz, hzy, if_false] at hbc
                have hxz : ¬ x < z := by omega
                have hzx : ¬ z < x := by omega
                simp [hxz, hzx, ih hab hbc]

/-! ### The hash ordering is big-endian numeric comparison -/

theorem bytesToNat_lt_pow (bs : List Nat) (h : ∀ x ∈ bs, x < 256) :
    bytesToNat bs < 256 ^ bs.length := by
  induction bs with
  | nil => simp [bytesToNat]
  | cons b bs ih =>
    have hb : b < 256 := h b (by simp)
    have ih' := ih (fun x hx => h x (by simp [hx]))
    have hstep : (b + 1) * 256 ^ bs.length ≤ 256 * 256 ^ bs.length :=
      Nat.mul_le_mul_right _ hb
    have hsucc : (b + 1) * 256 ^ bs.length = b * 256 ^ bs.length + 256 ^ bs.length := by
      ring
    have hpow : 256 ^ (b :: bs).length = 256 * 256 ^ bs.length := by
      simp [pow_succ]
      ring
    simp only [bytesToNat]
    omega

theorem bigendian_step {u v s N : Nat} (huv : u < v) (hs : s < N) (t : Nat) :
    u * N + s < v * N + t := by
  have h1 : (u + 1) * N = u * N + N := by ring
  have h2 : (u + 1) * N ≤ v * N := Nat.mul_le_mul_right _ huv
  omega

theorem hashLt_iff_bytesToNat_lt {a : Hash256} : ∀ {b : Hash256},
    a.length = b.length → (∀ x ∈ a, x < 256) → (∀ x ∈ b, x < 256) →
    (hashLt a b = true ↔ bytesToNat a < bytesToNat b) := by
  induction a with
  | nil =>
    intro b hlen _ _
    cases b with
    | nil => simp [hashLt, bytesToNat]
    | cons y ys => simp at hlen
  | cons x xs ih =>
    intro b hlen ha hb
    cases b with
    | nil => simp at hlen
    | cons y ys =>
      have hlen' : xs.length = ys.length := by simpa using hlen
      have hxs : ∀ v ∈ xs, v < 256 := fun v hv => ha v (by simp [hv])
      have hys : ∀ v ∈ ys, v < 256 := fun v hv => hb v (by simp [hv])
      have bxs : bytesToNat xs < 256 ^ ys.length := by
        rw [← hlen']
        exact bytesToNat_lt_pow xs hxs
      have bys : bytesToNat ys < 256 ^ ys.length := bytesToNat_lt_pow ys hys
      simp only [hashLt, bytesToNat, hlen']
      by_cases hxy : x < y
      · simp only [hxy, if_true, true_iff]
        exact bigendian_step hxy bxs _
      · by_cases hyx : y < x
        · have hge : ¬ (x * 256 ^ ys.length + bytesToNat xs <
              y * 256 ^ ys.length + bytesToNat ys) :=
            not_lt.mpr (le_of_lt (bigendian_step hyx bys _))
          simp [hxy, hyx, hge]
        · have hxyeq : x = y := by omega
          subst hxyeq
          simp only [hxy, if_false, ih hlen' hxs hys]
          omega

/-! ### Properties of the candidate comparator -/

theorem is_better_than_iff_raw (c d : WinningRoot) :
    c.is_better_than d = true ↔
      (d.total_attesting_balance < c.total_attesting_balance ∨
        (c.total_attesting_balance = d.total_attesting_balance ∧
          hashLt c.crosslink_data_root d.crosslink_data_root = true)) := by
  unfold WinningRoot.is_better_than
  by_cases h1 : d.total_attesting_balance < c.total_attesting_balance
  · simp [h1]
  · by_cases h2 : c.total_attesting_balance = d.total_attesting_balance
    · simp [h1, h2]
    · simp [h1, h2]

theorem is_better_than_asymm {c d : WinningRoot} (h : c.is_better_than d = true) :
    d.is_better_than c = false := by
  rw [is_better_than_iff_raw] at h
  cases hval : d.is_better_than c with
  | false => rfl
  | true =>
    rw [is_better_than_iff_raw] at hval
    rcases h with h | ⟨he, hr⟩ <;> rcases hval with h' | ⟨he', hr'⟩
    · omega
    · omega
    · omega
    · rw [hashLt_asymm hr] at hr'
      cases hr'

theorem is_better_than_trans {c d e : WinningRoot} (h1 : c.is_better_than d = true)
    (h2 : d.is_better_than e = true) : c.is_better_than e = true := by
  rw [is_better_than_iff_raw] at h1 h2 ⊢
  rcases h1 with h1 | ⟨e1, r1⟩ <;> rcases h2 with h2 | ⟨e2, r2⟩
  · exact Or.inl (by omega)
  · exact Or.inl (by omega)
  · exact Or.inl (by omega)
  · exact Or.inr ⟨by omega, hashLt_trans r1 r2⟩

theorem is_better_than_total {c d : WinningRoot}
    (h : c.crosslink_data_root ≠ d.crosslink_data_root) :
    c.is_better_than d = true ∨ d.is_better_than c = true := by
  rw [is_better_than_iff_raw, is_better_than_iff_raw]
  rcases Nat.lt_trichotomy c.total_attesting_balance d.total_attesting_balance with
    hlt | heq | hgt
  · exact Or.inr (Or.inl hlt)
  · rcases hashLt_connex h with hr | hr
    · exact Or.inl (Or.inr ⟨heq, hr⟩)
    · exact Or.inr (Or.inr ⟨heq.symm, hr⟩)
  · exact Or.inl (Or.inl hgt)

theorem is_better_than_total_of_ne_balance {c d : WinningRoot}
    (h : c.total_attesting_balance ≠ d.total_attesting_balance) :
    c.is_better_than d = true ∨ d.is_better_than c = true := by
  rw [is_better_than_iff_raw, is_better_than_iff_raw]
  rcases Nat.lt_trichotomy c.total_attesting_balance d.total_attesting_balance with
    hlt | heq | hgt
  · exact Or.inr (Or.inl hlt)
  · exact absurd heq h
  · exact Or.inl (Or.inl hgt)

/-- C2: `is_better_than(a, b)` holds exactly when `a` has the strictly larger
`total_attesting_balance`, or the balances are equal and `a.crosslink_data_root`
is the numerically lower hash under big-endian byte-wise comparison. -/
theorem C2_is_better_than_iff (a b : WinningRoot)
    (hlen : a.crosslink_data_root.length = b.crosslink_data_root.length)
    (ha : ∀ x ∈ a.crosslink_data_root, x < 256)
    (hb : ∀ x ∈ b.crosslink_data_root, x < 256) :
    a.is_better_than b = true ↔
      (b.total_attesting_balance < a.total_attesting_balance ∨
        (a.total_attesting_balance = b.total_attesting_balance ∧
          bytesToNat a.crosslink_data_root < bytesToNat b.crosslink_data_root)) := by
  rw [is_better_than_iff_raw, hashLt_iff_bytesToNat_lt hlen ha hb]

/-- C2 witness: two candidates with equal balance `5` and roots `[0, 1] < [0, 2]`
(big-endian values `1 < 2`): the comparator favours the smaller root. -/
theorem C2_is_better_than_iff_witness :
    (WinningRoot.mk [0, 1] [7] 5).is_better_than (WinningRoot.mk [0, 2] [] 5) = true ↔
      ((5 : Nat) < 5 ∨ ((5 : Nat) = 5 ∧ bytesToNat [0, 1] < bytesToNat [0, 2])) :=
  C2_is_better_than_iff (WinningRoot.mk [0, 1] [7] 5) (WinningRoot.mk [0, 2] [] 5)
    (by decide) (by decide) (by decide)

/-- C4: the comparator is asymmetric, and for candidates differing in balance, or
tying in balance but differing in root, exactly one direction holds. -/
theorem C4_comparator_exclusive (a b : WinningRoot) :
    (¬ (a.is_better_than b = true ∧ b.is_better_than a = true)) ∧
    (a.total_attesting_balance ≠ b.total_attesting_balance →
      (a.is_better_than b = true ↔ ¬ b.is_better_than a = true)) ∧
    (a.total_attesting_balance = b.total_attesting_balance →
      a.crosslink_data_root ≠ b.crosslink_data_root →
      (a.is_better_than b = true ↔ ¬ b.is_better_than a = true)) := by
  refine ⟨?_, ?_, ?_⟩
  · rintro ⟨h1, h2⟩
    rw [is_better_than_asymm h1] at h2
    cases h2
  · intro hne
    constructor
    · intro h1 h2
      rw [is_better_than_asymm h1] at h2
      cases h2
    · intro hnot
      rcases is_better_than_total_of_ne_balance hne with h | h
      · exact h
      · exact absurd h hnot
  · intro _ hroot
    constructor
    · intro h1 h2
      rw [is_better_than_asymm h1] at h2
      cases h2
    · intro hnot
      rcases is_better_than_total hroot with h | h
      · exact h
      · exact absurd h hnot

/-- C4 witness: concrete candidates with balances `7 > 5`: the comparison holds in
exactly one direction, and never in both. -/
theorem C4_comparator_exclusive_witness :
    (¬ ((WinningRoot.mk [1] [] 5).is_better_than (WinningRoot.mk [2] [] 7) = true ∧
      (WinningRoot.mk [2] [] 7).is_better_than (WinningRoot.mk [1] [] 5) = true)) ∧
    ((WinningRoot.mk [1] [] 5).is_better_than (WinningRoot.mk [2] [] 7) = true ↔
      ¬ (WinningRoot.mk [2] [] 7).is_better_than (WinningRoot.mk [1] [] 5) = true) :=
  ⟨(C4_comparator_exclusive (WinningRoot.mk [1] [] 5) (WinningRoot.mk [2] [] 7)).1,
    (C4_comparator_exclusive (WinningRoot.mk [1] [] 5)
      (WinningRoot.mk [2] [] 7)).2.1 (by decide)⟩

/-! ### Properties of the participant aggregator -/

/-- Get the payload of an `Except`, with a default for the error case. -/
def exceptD {ε α : Type} (e : Except ε α) (d : α) : α :=
  match e with
  | .ok x => x
  | .error _ => d

theorem total_balance_eq_sum (state : BeaconState) (indices : List Nat) :
    total_balance state indices =
      (indices.map state.get_effective_balance).sum := by
  suffices h : ∀ init, indices.foldl (fun acc i => acc + state.get_effective_balance i) init =
      init + (indices.map state.get_effective_balance).sum by
    simpa [total_balance] using h 0
  induction indices with
  | nil => simp
  | cons x xs ih =>
    intro init
    simp only [List.foldl_cons, List.map_cons, List.sum_cons, ih]
    omega

theorem total_balance_append (state : BeaconState) (xs ys : List Nat) :
    total_balance state (xs ++ ys) = total_balance state xs + total_balance state ys := by
  simp [total_balance_eq_sum]

theorem candidate_ok_inv {state : BeaconState} {shard : Nat}
    {current previous : List PendingAttestation} {root : Hash256} {c : WinningRoot}
    (h : candidate state shard current previous root = .ok c) :
    get_attesting_validator_indices state shard current previous root =
      .ok c.attesting_validator_indices ∧
    c.crosslink_data_root = root ∧
    c.total_attesting_balance = total_balance state c.attesting_validator_indices := by
  unfold candidate at h
  cases hidx : get_attesting_validator_indices state shard current previous root with
  | error e =>
    rw [hidx] at h
    simp [Bind.bind, Except.bind] at h
  | ok idx =>
    rw [hidx] at h
    simp only [Bind.bind, Except.bind, Except.ok.injEq] at h
    subst h
    exact ⟨rfl, rfl, rfl⟩

theorem candidate_error_iff {state : BeaconState} {shard : Nat}
    {current previous : List PendingAttestation} {root : Hash256} {e : BeaconStateError} :
    candidate state shard current previous root = .error e ↔
      get_attesting_validator_indices state shard current previous root = .error e := by
  unfold candidate
  cases hidx : get_attesting_validator_indices state shard current previous root with
  | error e' => simp [Bind.bind, Except.bind]
  | ok idx => simp [Bind.bind, Except.bind]

theorem attesting_indices_loop_append (state : BeaconState) (shard : Nat) (root : Hash256)
    (l1 l2 : List PendingAttestation) :
    attesting_indices_loop state shard root (l1 ++ l2) =
      (do
        let xs ← attesting_indices_loop state shard root l1
        let ys ← attesting_indices_loop state shard root l2
        pure (xs ++ ys)) := by
  induction l1 with
  | nil =>
    simp only [List.nil_append, attesting_indices_loop]
    cases attesting_indices_loop state shard root l2 <;>
      simp [Bind.bind, Except.bind, Pure.pure, Except.pure]
  | cons a rest ih =>
    simp only [List.cons_append, attesting_indices_loop]
    by_cases hm : a.data.shard = shard ∧ a.data.crosslink_data_root = root
    · simp only [if_pos hm]
      cases state.get_attestation_participants a.data a.aggregation_bitfield with
      | error e => simp [Bind.bind, Except.bind]
      | ok ps =>
        simp only [Bind.bind, Except.bind, List.append_eq] at ih ⊢
        rw [ih]
        cases attesting_indices_loop state shard root rest with
        | error e => simp
        | ok xs =>
          cases attesting_indices_loop state shard root l2 with
          | error e => simp
          | ok ys => simp [Pure.pure, Except.pure, List.append_assoc]
    · simp only [if_neg hm]
      exact ih

/-- The participant aggregation as the spec words it: filter the concatenation of
the current-epoch and previous-epoch lists (current first) to the records matching
both the shard and the target root, expand each record into its participant list,
and concatenate the expansions in iteration order, duplicates preserved. -/
def attesting_indices_spec (state : BeaconState) (shard : Nat)
    (current previous : List PendingAttestation) (root : Hash256) : List Nat :=
  (((current ++ previous).filter fun a =>
      decide (a.data.shard = shard ∧ a.data.crosslink_data_root = root)).map fun a =>
    exceptD (state.get_attestation_participants a.data a.aggregation_bitfield) []).flatten

theorem attesting_indices_loop_ok_eq_spec {state : BeaconState} {shard : Nat}
    {root : Hash256} : ∀ {l : List PendingAttestation} {idx : List Nat},
    attesting_indices_loop state shard root l = .ok idx →
    idx = ((l.filter fun a =>
        decide (a.data.shard = shard ∧ a.data.crosslink_data_root = root)).map fun a =>
      exceptD (state.get_attestation_participants a.data a.aggregation_bitfield) []).flatten := by
  intro l
  induction l with
  | nil =>
    intro idx h
    simp only [attesting_indices_loop, Except.ok.injEq] at h
    simp [← h]
  | cons a rest ih =>
    intro idx h
    simp only [attesting_indices_loop] at h
    by_cases hm : a.data.shard = shard ∧ a.data.crosslink_data_root = root
    · rw [if_pos hm] at h
      cases hps : state.get_attestation_participants a.data a.aggregation_bitfield with
      | error e =>
        rw [hps] at h
        simp [Bind.bind, Except.bind] at h
      | ok ps =>
        rw [hps] at h
        cases htail : attesting_indices_loop state shard root rest with
        | error e =>
          rw [htail] at h
          simp [Bind.bind, Except.bind] at h
        | ok tail =>
          rw [htail] at h
          simp only [Bind.bind, Except.bind, Except.ok.injEq] at h
          subst h
          simp [List.filter_cons, hm, hps, exceptD, ih htail]
    · rw [if_neg hm] at h
      have hmb : (decide (a.data.shard = shard ∧
          a.data.crosslink_data_root = root)) = false := by
        simpa using hm
      simp only [List.filter_cons, hmb]
      rw [if_neg (by simp)]
      exact ih h

/-- C8: the aggregator iterates the current-epoch list followed by the
previous-epoch list and concatenates, in that order and with duplicates kept, the
participation expansion of every record matching both the shard and the target
root; non-matching records contribute nothing. -/
theorem C8_aggregator_concatenation (state : BeaconState) (shard : Nat)
    (current previous : List PendingAttestation) (root : Hash256) (idx : List Nat)
    (h : get_attesting_validator_indices state shard current previous root = .ok idx) :
    idx = attesting_indices_spec state shard current previous root :=
  attesting_indices_loop_ok_eq_spec h

/-- C8 witness: one matching record in each list plus one non-matching record;
the result is the current-epoch expansion `[1, 2]` followed by the previous-epoch
expansion `[1, 2]`, duplicates preserved. -/
theorem C8_aggregator_concatenation_witness :
    ([1, 2, 1, 2] : List Nat) =
      attesting_indices_spec
        (BeaconState.mk (fun i => i) (fun _ b => .ok (if b = [] then [9] else [1, 2])))
        3 [PendingAttestation.mk (AttestationData.mk 3 [5]) [true],
           PendingAttestation.mk (AttestationData.mk 4 [5]) []]
        [PendingAttestation.mk (AttestationData.mk 3 [5]) [false]] [5] :=
  C8_aggregator_concatenation
    (BeaconState.mk (fun i => i) (fun _ b => .ok (if b = [] then [9] else [1, 2])))
    3 [PendingAttestation.mk (AttestationData.mk 3 [5]) [true],
       PendingAttestation.mk (AttestationData.mk 4 [5]) []]
    [PendingAttestation.mk (AttestationData.mk 3 [5]) [false]] [5] [1, 2, 1, 2] (by rfl)

/-- C3: every candidate's `total_attesting_balance` is the sum, over the entries
of `attesting_validator_indices` taken once per occurrence with no deduplication,
of that entry's effective balance. -/
theorem C3_balance_per_occurrence (state : BeaconState) (shard : Nat)
    (current previous : List PendingAttestation) (root : Hash256) (c : WinningRoot)
    (h : candidate state shard current previous root = .ok c) :
    c.total_attesting_balance =
      (c.attesting_validator_indices.map state.get_effective_balance).sum := by
  rw [(candidate_ok_inv h).2.2, total_balance_eq_sum]

/-- C3 witness: validator `5` is credited by one current-epoch and one
previous-epoch record for the same root, appears twice in the index list, and its
balance `105` is counted twice in the total `210`. -/
theorem C3_balance_per_occurrence_witness :
    (WinningRoot.mk [9] [5, 5] 210).total_attesting_balance =
      (([5, 5] : List Nat).map (fun i => 100 + i)).sum :=
  C3_balance_per_occurrence
    (BeaconState.mk (fun i => 100 + i) (fun _ _ => .ok [5])) 3
    [PendingAttestation.mk (AttestationData.mk 3 [9]) [true]]
    [PendingAttestation.mk (AttestationData.mk 3 [9]) [true]]
    [9] (WinningRoot.mk [9] [5, 5] 210) (by rfl)

theorem foldl_wrap_eq_of_lt (f : Nat → Nat) :
    ∀ (l : List Nat) (init : Nat), init + (l.map f).sum < U64_MOD →
      l.foldl (fun acc i => (acc + f i) % U64_MOD) init = init + (l.map f).sum := by
  intro l
  induction l with
  | nil =>
    intro init _
    simp
  | cons x xs ih =>
    intro init h
    simp only [List.map_cons, List.sum_cons] at h ⊢
    simp only [List.foldl_cons]
    have hlt : init + f x < U64_MOD := by omega
    rw [Nat.mod_eq_of_lt hlt, ih (init + f x) (by omega)]
    omega

theorem total_balance_u64_eq_of_no_overflow (state : BeaconState)
    (indices : List Nat)
    (h : (indices.map state.get_effective_balance).sum < U64_MOD) :
    total_balance_u64 state indices =
      (indices.map state.get_effective_balance).sum := by
  unfold total_balance_u64
  have hw := foldl_wrap_eq_of_lt state.get_effective_balance indices 0 (by omega)
  simpa using hw

/-- C7 counterexample: with effective balances of `2 ^ 63` per occurrence,
appending a second matching previous-epoch record makes the source's `u64` fold
wrap: the stored total for root `[1]` drops from `2 ^ 63` to `0`, so the balance
is not unconditionally non-decreasing in the number of contributing records. -/
theorem C7_balance_monotone_counterexample :
    get_attesting_validator_indices
      (BeaconState.mk (fun _ => 2 ^ 63) (fun _ _ => .ok [0])) 0
      [PendingAttestation.mk (AttestationData.mk 0 [1]) []] [] [1] = .ok [0] ∧
    get_attesting_validator_indices
      (BeaconState.mk (fun _ => 2 ^ 63) (fun _ _ => .ok [0])) 0
      [PendingAttestation.mk (AttestationData.mk 0 [1]) []]
      ([] ++ [PendingAttestation.mk (AttestationData.mk 0 [1]) []]) [1] =
      .ok [0, 0] ∧
    total_balance_u64
        (BeaconState.mk (fun _ => 2 ^ 63) (fun _ _ => .ok [0])) [0, 0] <
      total_balance_u64
        (BeaconState.mk (fun _ => 2 ^ 63) (fun _ _ => .ok [0])) [0] :=
  ⟨rfl, rfl, by decide⟩

/-- C7 (amended): a candidate's total attesting balance is a natural number
(hence `≥ 0`), and extending the previous-epoch list with one more record for
the same shard and root never decreases the `u64` balance computed for that
root, provided the per-occurrence balance sum of the extended run stays below
`2 ^ 64` (past that bound the source's `u64` fold wraps, see the
counterexample). -/
theorem C7_balance_monotone_u64 (state : BeaconState) (shard : Nat)
    (current previous : List PendingAttestation) (a : PendingAttestation)
    (root : Hash256) (idx idxExt : List Nat)
    (_hshard : a.data.shard = shard) (_hroot : a.data.crosslink_data_root = root)
    (h : get_attesting_validator_indices state shard current previous root = .ok idx)
    (hExt : get_attesting_validator_indices state shard current (previous ++ [a]) root =
      .ok idxExt)
    (hnof : (idxExt.map state.get_effective_balance).sum < U64_MOD) :
    0 ≤ total_balance_u64 state idx ∧
      total_balance_u64 state idx ≤ total_balance_u64 state idxExt := by
  refine ⟨Nat.zero_le _, ?_⟩
  unfold get_attesting_validator_indices at h hExt
  rw [← List.append_assoc, attesting_indices_loop_append, h] at hExt
  simp only [Bind.bind, Except.bind] at hExt
  cases hsing : attesting_indices_loop state shard root [a] with
  | error e =>
    rw [hsing] at hExt
    cases hExt
  | ok ys =>
    rw [hsing] at hExt
    simp only [Pure.pure, Except.pure, Except.ok.injEq] at hExt
    subst hExt
    have hsplit : ((idx ++ ys).map state.get_effective_balance).sum =
        (idx.map state.get_effective_balance).sum +
          (ys.map state.get_effective_balance).sum := by
      simp
    rw [total_balance_u64_eq_of_no_overflow state idx (by omega),
      total_balance_u64_eq_of_no_overflow state (idx ++ ys) hnof]
    omega

/-- C7 witness: adding a previous-epoch record for the same shard and root
raises the `u64` balance for that root from `7` to `14`; the sums stay far below
`2 ^ 64`. -/
theorem C7_balance_monotone_u64_witness :
    0 ≤ total_balance_u64 (BeaconState.mk (fun _ => 7) (fun _ _ => .ok [4])) [4] ∧
      total_balance_u64 (BeaconState.mk (fun _ => 7) (fun _ _ => .ok [4])) [4] ≤
        total_balance_u64 (BeaconState.mk (fun _ => 7) (fun _ _ => .ok [4])) [4, 4] :=
  C7_balance_monotone_u64 (BeaconState.mk (fun _ => 7) (fun _ _ => .ok [4])) 2
    [PendingAttestation.mk (AttestationData.mk 2 [8]) [true]] []
    (PendingAttestation.mk (AttestationData.mk 2 [8]) [true])
    [8] [4] [4, 4] (by rfl) (by rfl) (by rfl) (by rfl) (by decide)

/-! ### SSZ decoding of BLS public keys -/

/-- C10: with `i` within the slice, `ssz_decode` returns `TooShort` whenever fewer
than `BLS_PUBLIC_KEY_BYTE_SIZE` bytes remain past `i`; on success the returned
next offset is exactly `i + BLS_PUBLIC_KEY_BYTE_SIZE`, which lies within the
slice, and the parser was fed exactly that many bytes starting at `i`. -/
theorem C10_ssz_decode_bounds (from_bytes : List Nat → Option RawPublicKey)
    (bytes : List Nat) (i : Nat) (hi : i ≤ bytes.length) :
    (bytes.length - i < BLS_PUBLIC_KEY_BYTE_SIZE →
      PublicKey.ssz_decode from_bytes bytes i = .error .TooShort) ∧
    (∀ pk j, PublicKey.ssz_decode from_bytes bytes i = .ok (pk, j) →
      j = i + BLS_PUBLIC_KEY_BYTE_SIZE ∧
      i + BLS_PUBLIC_KEY_BYTE_SIZE ≤ bytes.length ∧
      ((bytes.drop i).take BLS_PUBLIC_KEY_BYTE_SIZE).length =
        BLS_PUBLIC_KEY_BYTE_SIZE) := by
  constructor
  · intro hshort
    unfold PublicKey.ssz_decode
    rw [if_pos hshort]
  · intro pk j h
    unfold PublicKey.ssz_decode at h
    by_cases hshort : bytes.length - i < BLS_PUBLIC_KEY_BYTE_SIZE
    · rw [if_pos hshort] at h
      cases h
    · rw [if_neg hshort] at h
      cases hfb : from_bytes ((bytes.drop i).take BLS_PUBLIC_KEY_BYTE_SIZE) with
      | none =>
        rw [hfb] at h
        cases h
      | some raw =>
        rw [hfb] at h
        simp only [Except.ok.injEq, Prod.mk.injEq] at h
        refine ⟨h.2.symm, by omega, ?_⟩
        simp only [List.length_take, List.length_drop]
        omega

/-- C10 witness: decoding `40 < 48` remaining bytes fails with `TooShort`. -/
theorem C10_ssz_decode_bounds_witness :
    PublicKey.ssz_decode (fun l => some (RawPublicKey.mk l)) (List.replicate 40 0) 0 =
      .error .TooShort :=
  (C10_ssz_decode_bounds (fun l => some (RawPublicKey.mk l)) (List.replicate 40 0) 0
    (by decide)).1 (by decide)

/-! ### Properties of the selector loop -/

theorem except_isOk_iff {ε α : Type} (e : Except ε α) :
    e.isOk = true ↔ ∃ x, e = .ok x := by
  cases e <;> simp [Except.isOk, Except.toBool]

theorem updateBest_isSome (acc : Option WinningRoot) (c : WinningRoot) :
    ∃ w2, updateBest acc c = some w2 := by
  cases acc with
  | none => exact ⟨c, rfl⟩
  | some w =>
    by_cases hb : c.is_better_than w = true
    · exact ⟨c, by simp [updateBest, hb]⟩
    · exact ⟨w, by simp [updateBest, hb]⟩

theorem winning_root_loop_all_ok {state : BeaconState} {shard : Nat}
    {current previous : List PendingAttestation} :
    ∀ {l : List Hash256} {acc o : Option WinningRoot},
      winning_root_loop state shard current previous acc l = .ok o →
      ∀ r ∈ l, (candidate state shard current previous r).isOk = true := by
  intro l
  induction l with
  | nil =>
    intro acc o _ r hr
    cases hr
  | cons r0 rest ih =>
    intro acc o h r hr
    simp only [winning_root_loop] at h
    cases hc : candidate state shard current previous r0 with
    | error e =>
      rw [hc] at h
      simp [Bind.bind, Except.bind] at h
    | ok c =>
      rw [hc] at h
      simp only [Bind.bind, Except.bind] at h
      rcases List.mem_cons.mp hr with rfl | hr2
      · rw [hc]
        rfl
      · exact ih h r hr2

theorem winning_root_loop_eq_foldl {state : BeaconState} {shard : Nat}
    {current previous : List PendingAttestation} :
    ∀ {l : List Hash256} (acc : Option WinningRoot),
      (∀ r ∈ l, (candidate state shard current previous r).isOk = true) →
      winning_root_loop state shard current previous acc l =
        .ok (l.foldl (fun b r => updateBest b
          (exceptD (candidate state shard current previous r)
            (WinningRoot.mk [] [] 0))) acc) := by
  intro l
  induction l with
  | nil =>
    intro acc _
    rfl
  | cons r0 rest ih =>
    intro acc hok
    rcases (except_isOk_iff _).mp (hok r0 (by simp)) with ⟨c, hc⟩
    simp only [winning_root_loop, hc, Bind.bind, Except.bind, List.foldl_cons]
    rw [ih _ (fun r hr => hok r (by simp [hr]))]
    simp [exceptD]

theorem winning_root_loop_some {state : BeaconState} {shard : Nat}
    {current previous : List PendingAttestation} :
    ∀ {l : List Hash256} {w : WinningRoot} {o : Option WinningRoot},
      winning_root_loop state shard current previous (some w) l = .ok o →
      ∃ w2, o = some w2 := by
  intro l
  induction l with
  | nil =>
    intro w o h
    simp only [winning_root_loop, Except.ok.injEq] at h
    exact ⟨w, h.symm⟩
  | cons r0 rest ih =>
    intro w o h
    simp only [winning_root_loop] at h
    cases hc : candidate state shard current previous r0 with
    | error e =>
      rw [hc] at h
      simp [Bind.bind, Except.bind] at h
    | ok c =>
      rw [hc] at h
      simp only [Bind.bind, Except.bind] at h
      rcases updateBest_isSome (some w) c with ⟨w2, hw2⟩
      rw [hw2] at h
      exact ih h

theorem winning_root_loop_mem {state : BeaconState} {shard : Nat}
    {current previous : List PendingAttestation} :
    ∀ {l : List Hash256} {acc o : Option WinningRoot} {w : WinningRoot},
      winning_root_loop state shard current previous acc l = .ok o →
      o = some w →
      acc = some w ∨ ∃ r ∈ l, candidate state shard current previous r = .ok w := by
  intro l
  induction l with
  | nil =>
    intro acc o w h ho
    simp only [winning_root_loop, Except.ok.injEq] at h
    exact Or.inl (by rw [h, ho])
  | cons r0 rest ih =>
    intro acc o w h ho
    simp only [winning_root_loop] at h
    cases hc : candidate state shard current previous r0 with
    | error e =>
      rw [hc] at h
      simp [Bind.bind, Except.bind] at h
    | ok c =>
      rw [hc] at h
      simp only [Bind.bind, Except.bind] at h
      rcases ih h ho with hacc | ⟨r, hr, hcr⟩
      · cases acc with
        | none =>
          simp only [updateBest, Option.some.injEq] at hacc
          subst hacc
          exact Or.inr ⟨r0, by simp, hc⟩
        | some w0 =>
          by_cases hb : c.is_better_than w0 = true
          · have hupd : updateBest (some w0) c = some c := by simp [updateBest, hb]
            rw [hupd, Option.some.injEq] at hacc
            subst hacc
            exact Or.inr ⟨r0, by simp, hc⟩
          · have hupd : updateBest (some w0) c = some w0 := by simp [updateBest, hb]
            rw [hupd] at hacc
            exact Or.inl hacc
      · exact Or.inr ⟨r, by simp [hr], hcr⟩

theorem winning_root_loop_error {state : BeaconState} {shard : Nat}
    {current previous : List PendingAttestation} :
    ∀ {l1 : List Hash256} (acc : Option WinningRoot) {r : Hash256} {l2 : List Hash256}
      {e : BeaconStateError},
      (∀ r2 ∈ l1, (candidate state shard current previous r2).isOk = true) →
      candidate state shard current previous r = .error e →
      winning_root_loop state shard current previous acc (l1 ++ r :: l2) = .error e := by
  intro l1
  induction l1 with
  | nil =>
    intro acc r l2 e _ herr
    simp only [List.nil_append, winning_root_loop, herr, Bind.bind, Except.bind]
  | cons r0 rest ih =>
    intro acc r l2 e hok herr
    rcases (except_isOk_iff _).mp (hok r0 (by simp)) with ⟨c, hc⟩
    simp only [List.cons_append, winning_root_loop, hc, Bind.bind, Except.bind]
    exact ih _ (fun r2 hr2 => hok r2 (by simp [hr2])) herr

theorem attesting_indices_loop_isOk {state : BeaconState} {shard : Nat} {root : Hash256} :
    ∀ {l : List PendingAttestation},
      (∀ a ∈ l,
        (state.get_attestation_participants a.data a.aggregation_bitfield).isOk = true) →
      ∃ idx, attesting_indices_loop state shard root l = .ok idx := by
  intro l
  induction l with
  | nil =>
    intro _
    exact ⟨[], rfl⟩
  | cons a rest ih =>
    intro hok
    rcases ih (fun a2 ha2 => hok a2 (by simp [ha2])) with ⟨tail, htail⟩
    by_cases hm : a.data.shard = shard ∧ a.data.crosslink_data_root = root
    · rcases (except_isOk_iff _).mp (hok a (by simp)) with ⟨ps, hps⟩
      refine ⟨ps ++ tail, ?_⟩
      simp only [attesting_indices_loop, if_pos hm, hps, htail, Bind.bind, Except.bind]
    · refine ⟨tail, ?_⟩
      simp only [attesting_indices_loop, if_neg hm, htail]

theorem attesting_indices_loop_error_src {state : BeaconState} {shard : Nat}
    {root : Hash256} :
    ∀ {l : List PendingAttestation} {e : BeaconStateError},
      attesting_indices_loop state shard root l = .error e →
      ∃ a ∈ l, a.data.shard = shard ∧ a.data.crosslink_data_root = root ∧
        state.get_attestation_participants a.data a.aggregation_bitfield = .error e := by
  intro l
  induction l with
  | nil =>
    intro e h
    cases h
  | cons a rest ih =>
    intro e h
    simp only [attesting_indices_loop] at h
    by_cases hm : a.data.shard = shard ∧ a.data.crosslink_data_root = root
    · rw [if_pos hm] at h
      cases hps : state.get_attestation_participants a.data a.aggregation_bitfield with
      | error e2 =>
        rw [hps] at h
        simp only [Bind.bind, Except.bind, Except.error.injEq] at h
        subst h
        exact ⟨a, by simp, hm.1, hm.2, hps⟩
      | ok ps =>
        rw [hps] at h
        cases htail : attesting_indices_loop state shard root rest with
        | error e2 =>
          rw [htail] at h
          simp only [Bind.bind, Except.bind, Except.error.injEq] at h
          subst h
          rcases ih htail with ⟨a2, ha2, h1, h2, h3⟩
          exact ⟨a2, by simp [ha2], h1, h2, h3⟩
        | ok tail =>
          rw [htail] at h
          simp [Bind.bind, Except.bind] at h
    · rw [if_neg hm] at h
      rcases ih h with ⟨a2, ha2, h1, h2, h3⟩
      exact ⟨a2, by simp [ha2], h1, h2, h3⟩

theorem attesting_indices_loop_all_empty {state : BeaconState} {shard : Nat}
    {root : Hash256} :
    ∀ {l : List PendingAttestation},
      (∀ a ∈ l,
        state.get_attestation_participants a.data a.aggregation_bitfield = .ok []) →
      attesting_indices_loop state shard root l = .ok [] := by
  intro l
  induction l with
  | nil =>
    intro _
    rfl
  | cons a rest ih =>
    intro hok
    have htail := ih (fun a2 ha2 => hok a2 (by simp [ha2]))
    by_cases hm : a.data.shard = shard ∧ a.data.crosslink_data_root = root
    · simp only [attesting_indices_loop, if_pos hm, hok a (by simp), htail,
        Bind.bind, Except.bind]
      rfl
    · simp only [attesting_indices_loop, if_neg hm, htail]

theorem candidate_ok_of_lookups_ok {state : BeaconState} {shard : Nat}
    {current previous : List PendingAttestation} (r : Hash256)
    (hok : ∀ a ∈ current ++ previous,
      (state.get_attestation_participants a.data a.aggregation_bitfield).isOk = true) :
    ∃ idx, candidate state shard current previous r =
      .ok (WinningRoot.mk r idx (total_balance state idx)) := by
  rcases attesting_indices_loop_isOk hok with ⟨idx, hidx⟩
  refine ⟨idx, ?_⟩
  unfold candidate get_attesting_validator_indices
  rw [hidx]
  simp [Bind.bind, Except.bind]

theorem mem_crosslink_data_roots {shard : Nat}
    {current previous : List PendingAttestation} {r : Hash256} :
    r ∈ crosslink_data_roots shard current previous ↔
      ∃ a ∈ previous ++ current,
        a.data.shard = shard ∧ a.data.crosslink_data_root = r := by
  unfold crosslink_data_roots
  rw [List.mem_dedup, List.mem_filterMap]
  constructor
  · rintro ⟨a, ha, hfa⟩
    by_cases hs : a.data.shard = shard
    · rw [if_pos hs] at hfa
      exact ⟨a, ha, hs, by injection hfa⟩
    · rw [if_neg hs] at hfa
      cases hfa
  · rintro ⟨a, ha, hs, hr⟩
    exact ⟨a, ha, by rw [if_pos hs, hr]⟩

/-- C5: if no attestation in either list matches the shard, the selector returns
`Ok(None)`: an explicit absent winner, not a sentinel hash. -/
theorem C5_no_match_no_winner (state : BeaconState) (shard : Nat)
    (current previous : List PendingAttestation) (enum : List Hash256)
    (henum : valid_enum shard current previous enum)
    (h : ∀ a ∈ current ++ previous, a.data.shard ≠ shard) :
    winning_root state shard current previous enum = .ok none := by
  have henil : enum = [] := by
    rcases henum with ⟨_, hsub, _⟩
    cases enum with
    | nil => rfl
    | cons r rest =>
      exfalso
      rcases mem_crosslink_data_roots.mp (hsub r (by simp)) with ⟨a, ha, hs, _⟩
      refine h a ?_ hs
      rw [List.mem_append] at ha ⊢
      tauto
  subst henil
  rfl

/-- C5 witness: attestations exist only for shard `4`; for shard `1` the root set
is empty and the selector reports no winner. -/
theorem C5_no_match_no_winner_witness :
    winning_root (BeaconState.mk (fun _ => 0) (fun _ _ => .ok [])) 1
      [PendingAttestation.mk (AttestationData.mk 4 [3]) []] [] [] = .ok none :=
  C5_no_match_no_winner (BeaconState.mk (fun _ => 0) (fun _ _ => .ok [])) 1
    [PendingAttestation.mk (AttestationData.mk 4 [3]) []] [] [] (by decide) (by decide)

/-- C6: a candidate whose participation lookup fails makes the whole computation
return exactly that error (no partial result); every such error originates
unchanged from a matching record's lookup; and when every lookup succeeds the
selector returns `Ok`. -/
theorem C6_lookup_error_fail_fast (state : BeaconState) (shard : Nat)
    (current previous : List PendingAttestation) (enum l1 l2 : List Hash256)
    (r : Hash256) (e : BeaconStateError) :
    (enum = l1 ++ r :: l2 →
      (∀ r2 ∈ l1, (candidate state shard current previous r2).isOk = true) →
      candidate state shard current previous r = .error e →
      winning_root state shard current previous enum = .error e) ∧
    (candidate state shard current previous r = .error e →
      ∃ a ∈ current ++ previous, a.data.shard = shard ∧
        a.data.crosslink_data_root = r ∧
        state.get_attestation_participants a.data a.aggregation_bitfield = .error e) ∧
    ((∀ a ∈ current ++ previous,
        (state.get_attestation_participants a.data a.aggregation_bitfield).isOk = true) →
      (winning_root state shard current previous enum).isOk = true) := by
  refine ⟨?_, ?_, ?_⟩
  · rintro rfl hok herr
    exact winning_root_loop_error _ hok herr
  · intro herr
    exact attesting_indices_loop_error_src (candidate_error_iff.mp herr)
  · intro hok
    have hcand : ∀ r2 ∈ enum, (candidate state shard current previous r2).isOk = true := by
      intro r2 _
      rcases candidate_ok_of_lookups_ok r2 hok with ⟨idx, hidx⟩
      rw [hidx]
      rfl
    rw [winning_root, winning_root_loop_eq_foldl none hcand]
    rfl

/-- C6 witness: the only matching record's lookup fails with error code `7`; the
selector returns exactly that error. -/
theorem C6_lookup_error_fail_fast_witness :
    winning_root
      (BeaconState.mk (fun _ => 0) (fun _ _ => .error (BeaconStateError.mk 7))) 0
      [PendingAttestation.mk (AttestationData.mk 0 [3]) []] [] [[3]] =
      .error (BeaconStateError.mk 7) :=
  (C6_lookup_error_fail_fast
    (BeaconState.mk (fun _ => 0) (fun _ _ => .error (BeaconStateError.mk 7))) 0
    [PendingAttestation.mk (AttestationData.mk 0 [3]) []] [] [[3]] [] [] [3]
    (BeaconStateError.mk 7)).1 rfl (by simp) (by rfl)

/-- C9: when at least one record matches the shard and every lookup succeeds, the
selector returns `Some` winner; in particular when every participation expansion
is empty, the winner has an empty index list and a total balance of `0` — a zero
balance is never reported as "no winner". -/
theorem C9_zero_balance_winner (state : BeaconState) (shard : Nat)
    (current previous : List PendingAttestation) (enum : List Hash256)
    (henum : valid_enum shard current previous enum)
    (hmatch : ∃ a ∈ current ++ previous, a.data.shard = shard)
    (hok : ∀ a ∈ current ++ previous,
      (state.get_attestation_participants a.data a.aggregation_bitfield).isOk = true) :
    (∃ w, winning_root state shard current previous enum = .ok (some w)) ∧
    ((∀ a ∈ current ++ previous,
        state.get_attestation_participants a.data a.aggregation_bitfield = .ok []) →
      ∃ w, winning_root state shard current previous enum = .ok (some w) ∧
        w.attesting_validator_indices = [] ∧ w.total_attesting_balance = 0) := by
  have hsome : ∃ w, winning_root state shard current previous enum = .ok (some w) := by
    have hcand : ∀ r2 ∈ enum, (candidate state shard current previous r2).isOk = true := by
      intro r2 _
      rcases candidate_ok_of_lookups_ok r2 hok with ⟨idx, hidx⟩
      rw [hidx]
      rfl
    have hne : enum ≠ [] := by
      rcases hmatch with ⟨a, ha, hs⟩
      rcases henum with ⟨_, _, hsup⟩
      intro hnil
      have hmem : a.data.crosslink_data_root ∈ enum := by
        refine hsup a.data.crosslink_data_root ?_
        refine mem_crosslink_data_roots.mpr ⟨a, ?_, hs, rfl⟩
        rw [List.mem_append] at ha ⊢
        tauto
      rw [hnil] at hmem
      cases hmem
    cases henumeq : enum with
    | nil => exact absurd henumeq hne
    | cons r0 rest =>
      rw [henumeq] at hcand
      rcases (except_isOk_iff _).mp (hcand r0 (by simp)) with ⟨c, hc⟩
      have hrest : winning_root_loop state shard current previous
          (updateBest none c) rest =
          .ok (rest.foldl (fun b r => updateBest b
            (exceptD (candidate state shard current previous r)
              (WinningRoot.mk [] [] 0))) (updateBest none c)) :=
        winning_root_loop_eq_foldl (updateBest none c)
          (fun r2 hr2 => hcand r2 (by simp [hr2]))
      rcases winning_root_loop_some hrest with ⟨w, hw⟩
      refine ⟨w, ?_⟩
      simp only [winning_root, winning_root_loop, hc, Bind.bind, Except.bind]
      rw [hrest, hw]
  refine ⟨hsome, ?_⟩
  intro hempty
  rcases hsome with ⟨w, hw⟩
  rcases winning_root_loop_mem hw rfl with hacc | ⟨r, _, hcr⟩
  · cases hacc
  · have hget : candidate state shard current previous r =
        .ok (WinningRoot.mk r [] 0) := by
      unfold candidate get_attesting_validator_indices
      rw [attesting_indices_loop_all_empty hempty]
      simp [Bind.bind, Except.bind]
      rfl
    rw [hget] at hcr
    injection hcr with hcr
    exact ⟨w, hw, by rw [← hcr], by rw [← hcr]⟩

/-- C9 witness: one matching record whose participation expansion is empty; the
selector still reports a winner, with no attesting indices and balance `0`. -/
theorem C9_zero_balance_winner_witness :
    (∃ w, winning_root (BeaconState.mk (fun _ => 0) (fun _ _ => .ok [])) 0
      [PendingAttestation.mk (AttestationData.mk 0 [3]) []] [] [[3]] = .ok (some w)) ∧
    ((∀ a ∈ [PendingAttestation.mk (AttestationData.mk 0 [3]) []] ++
        ([] : List PendingAttestation),
        (BeaconState.mk (fun _ => 0)
          (fun _ _ => .ok [])).get_attestation_participants a.data
            a.aggregation_bitfield = .ok []) →
      ∃ w, winning_root (BeaconState.mk (fun _ => 0) (fun _ _ => .ok [])) 0
        [PendingAttestation.mk (AttestationData.mk 0 [3]) []] [] [[3]] = .ok (some w) ∧
        w.attesting_validator_indices = [] ∧ w.total_attesting_balance = 0) :=
  C9_zero_balance_winner (BeaconState.mk (fun _ => 0) (fun _ _ => .ok [])) 0
    [PendingAttestation.mk (AttestationData.mk 0 [3]) []] [] [[3]]
    (by decide) ⟨PendingAttestation.mk (AttestationData.mk 0 [3]) [], by simp, rfl⟩
    (by decide)

/-! ### Order independence of the selector -/

/-- The observable outcome of a selector run named by the spec: the winning
`crosslink_data_root` and its `total_attesting_balance` (or the absence of a
winner). -/
def resultKey : Option WinningRoot → Option (Nat × Hash256)
  | none => none
  | some w => some (w.total_attesting_balance, w.crosslink_data_root)

theorem is_better_than_congr {c1 c2 w1 w2 : WinningRoot}
    (hcb : c1.total_attesting_balance = c2.total_attesting_balance)
    (hcr : c1.crosslink_data_root = c2.crosslink_data_root)
    (hwb : w1.total_attesting_balance = w2.total_attesting_balance)
    (hwr : w1.crosslink_data_root = w2.crosslink_data_root) :
    c1.is_better_than w1 = c2.is_better_than w2 := by
  unfold WinningRoot.is_better_than
  rw [hcb, hcr, hwb, hwr]

theorem resultKey_updateBest_congr {acc1 acc2 : Option WinningRoot}
    {c1 c2 : WinningRoot}
    (hacc : resultKey acc1 = resultKey acc2)
    (hb : c1.total_attesting_balance = c2.total_attesting_balance)
    (hr : c1.crosslink_data_root = c2.crosslink_data_root) :
    resultKey (updateBest acc1 c1) = resultKey (updateBest acc2 c2) := by
  cases acc1 with
  | none =>
    cases acc2 with
    | none => simp [updateBest, resultKey, hb, hr]
    | some w2 => simp [resultKey] at hacc
  | some w1 =>
    cases acc2 with
    | none => simp [resultKey] at hacc
    | some w2 =>
      simp only [resultKey, Option.some.injEq, Prod.mk.injEq] at hacc
      have hbt : c1.is_better_than w1 = c2.is_better_than w2 :=
        is_better_than_congr hb hr hacc.1 hacc.2
      by_cases h : c1.is_better_than w1 = true
      · have h2 : c2.is_better_than w2 = true := by rw [← hbt]; exact h
        simp [updateBest, h, h2, resultKey, hb, hr]
      · have h2 : ¬ c2.is_better_than w2 = true := by rw [← hbt]; exact h
        simp [updateBest, h, h2, resultKey, hacc.1, hacc.2]

theorem foldl_updateBest_key_congr {f g : Hash256 → WinningRoot} :
    ∀ {l : List Hash256},
      (∀ r ∈ l, (f r).total_attesting_balance = (g r).total_attesting_balance ∧
        (f r).crosslink_data_root = (g r).crosslink_data_root) →
      ∀ {acc1 acc2 : Option WinningRoot}, resultKey acc1 = resultKey acc2 →
      resultKey (l.foldl (fun b r => updateBest b (f r)) acc1) =
        resultKey (l.foldl (fun b r => updateBest b (g r)) acc2) := by
  intro l
  induction l with
  | nil =>
    intro _ acc1 acc2 h
    exact h
  | cons r0 rest ih =>
    intro hkey acc1 acc2 hacc
    simp only [List.foldl_cons]
    exact ih (fun r hr => hkey r (by simp [hr]))
      (resultKey_updateBest_congr hacc (hkey r0 (by simp)).1 (hkey r0 (by simp)).2)

theorem updateBest_comm {c d : WinningRoot}
    (hne : c.crosslink_data_root ≠ d.crosslink_data_root) (b : Option WinningRoot) :
    updateBest (updateBest b c) d = updateBest (updateBest b d) c := by
  rcases is_better_than_total hne with hcd | hdc
  · have hdc := is_better_than_asymm hcd
    cases b with
    | none => simp [updateBest, hcd, hdc]
    | some w =>
      by_cases hcw : c.is_better_than w = true
      · by_cases hdw : d.is_better_than w = true
        · simp [updateBest, hcw, hdw, hcd, hdc]
        · simp [updateBest, hcw, hdw, hcd, hdc]
      · by_cases hdw : d.is_better_than w = true
        · exact absurd (is_better_than_trans hcd hdw) (by simp [hcw])
        · simp [updateBest, hcw, hdw]
  · have hcd := is_better_than_asymm hdc
    cases b with
    | none => simp [updateBest, hcd, hdc]
    | some w =>
      by_cases hdw : d.is_better_than w = true
      · by_cases hcw : c.is_better_than w = true
        · simp [updateBest, hcw, hdw, hcd, hdc]
        · simp [updateBest, hcw, hdw, hcd, hdc]
      · by_cases hcw : c.is_better_than w = true
        · exact absurd (is_better_than_trans hdc hcw) (by simp [hdw])
        · simp [updateBest, hcw, hdw]

theorem get_attesting_ok_balance_perm {state : BeaconState} {shard : Nat}
    {cur1 prev1 cur2 prev2 : List PendingAttestation} {r : Hash256}
    {idx1 idx2 : List Nat}
    (hc : cur1.Perm cur2) (hp : prev1.Perm prev2)
    (h1 : get_attesting_validator_indices state shard cur1 prev1 r = .ok idx1)
    (h2 : get_attesting_validator_indices state shard cur2 prev2 r = .ok idx2) :
    total_balance state idx1 = total_balance state idx2 := by
  have e1 := attesting_indices_loop_ok_eq_spec h1
  have e2 := attesting_indices_loop_ok_eq_spec h2
  rw [total_balance_eq_sum, total_balance_eq_sum, e1, e2,
    List.map_flatten, List.map_flatten, List.sum_flatten, List.sum_flatten,
    List.map_map, List.map_map, List.map_map, List.map_map]
  exact List.Perm.sum_eq (List.Perm.map _ (List.Perm.filter _ (hc.append hp)))

theorem candidate_key_perm {state : BeaconState} {shard : Nat}
    {cur1 prev1 cur2 prev2 : List PendingAttestation} {r : Hash256}
    {c1 c2 : WinningRoot}
    (hc : cur1.Perm cur2) (hp : prev1.Perm prev2)
    (h1 : candidate state shard cur1 prev1 r = .ok c1)
    (h2 : candidate state shard cur2 prev2 r = .ok c2) :
    c1.total_attesting_balance = c2.total_attesting_balance ∧
      c1.crosslink_data_root = c2.crosslink_data_root := by
  obtain ⟨hg1, hr1, hb1⟩ := candidate_ok_inv h1
  obtain ⟨hg2, hr2, hb2⟩ := candidate_ok_inv h2
  refine ⟨?_, by rw [hr1, hr2]⟩
  rw [hb1, hb2]
  exact get_attesting_ok_balance_perm hc hp hg1 hg2

/-- C1: for a fixed shard, permuting either attestation list (keeping each
record intact) and enumerating the `HashSet` of distinct candidate roots in any
order leaves the selector's outcome unchanged: both runs agree on the presence
of a winner, its `crosslink_data_root`, and its `total_attesting_balance`. -/
theorem C1_winner_unique_order_independent (state : BeaconState) (shard : Nat)
    (cur1 prev1 cur2 prev2 : List PendingAttestation) (enum1 enum2 : List Hash256)
    (o1 o2 : Option WinningRoot)
    (hc : cur1.Perm cur2) (hp : prev1.Perm prev2)
    (he1 : valid_enum shard cur1 prev1 enum1)
    (he2 : valid_enum shard cur2 prev2 enum2)
    (h1 : winning_root state shard cur1 prev1 enum1 = .ok o1)
    (h2 : winning_root state shard cur2 prev2 enum2 = .ok o2) :
    resultKey o1 = resultKey o2 := by
  have hok1 : ∀ r ∈ enum1, (candidate state shard cur1 prev1 r).isOk = true :=
    winning_root_loop_all_ok h1
  have hok2 : ∀ r ∈ enum2, (candidate state shard cur2 prev2 r).isOk = true :=
    winning_root_loop_all_ok h2
  have hmem : ∀ r, r ∈ enum1 ↔ r ∈ enum2 := by
    intro r
    constructor
    · intro hr
      refine he2.2.2 r ?_
      rcases mem_crosslink_data_roots.mp (he1.2.1 r hr) with ⟨a, ha, hs, hrr⟩
      exact mem_crosslink_data_roots.mpr ⟨a, ((hp.append hc).mem_iff).mp ha, hs, hrr⟩
    · intro hr
      refine he1.2.2 r ?_
      rcases mem_crosslink_data_roots.mp (he2.2.1 r hr) with ⟨a, ha, hs, hrr⟩
      exact mem_crosslink_data_roots.mpr ⟨a, ((hp.append hc).mem_iff).mpr ha, hs, hrr⟩
  have hperm : enum1.Perm enum2 := (List.perm_ext_iff_of_nodup he1.1 he2.1).mpr hmem
  rw [winning_root, winning_root_loop_eq_foldl none hok1] at h1
  rw [winning_root, winning_root_loop_eq_foldl none hok2] at h2
  injection h1 with h1
  injection h2 with h2
  have comm : ∀ x ∈ enum1, ∀ y ∈ enum1, ∀ (z : Option WinningRoot),
      updateBest (updateBest z
        (exceptD (candidate state shard cur1 prev1 x) (WinningRoot.mk [] [] 0)))
        (exceptD (candidate state shard cur1 prev1 y) (WinningRoot.mk [] [] 0)) =
      updateBest (updateBest z
        (exceptD (candidate state shard cur1 prev1 y) (WinningRoot.mk [] [] 0)))
        (exceptD (candidate state shard cur1 prev1 x) (WinningRoot.mk [] [] 0)) := by
    intro x hx y hy z
    by_cases hxy : x = y
    · rw [hxy]
    · rcases (except_isOk_iff _).mp (hok1 x hx) with ⟨cx, hcx⟩
      rcases (except_isOk_iff _).mp (hok1 y hy) with ⟨cy, hcy⟩
      have hfx : exceptD (candidate state shard cur1 prev1 x)
          (WinningRoot.mk [] [] 0) = cx := by
        rw [hcx]
        rfl
      have hfy : exceptD (candidate state shard cur1 prev1 y)
          (WinningRoot.mk [] [] 0) = cy := by
        rw [hcy]
        rfl
      rw [hfx, hfy]
      refine updateBest_comm ?_ z
      rw [(candidate_ok_inv hcx).2.1, (candidate_ok_inv hcy).2.1]
      exact hxy
  have stepA : resultKey (enum1.foldl (fun b r => updateBest b
      (exceptD (candidate state shard cur1 prev1 r) (WinningRoot.mk [] [] 0))) none) =
      resultKey (enum2.foldl (fun b r => updateBest b
        (exceptD (candidate state shard cur1 prev1 r) (WinningRoot.mk [] [] 0))) none) :=
    congrArg resultKey (hperm.foldl_eq' comm none)
  have hkey : ∀ r ∈ enum2,
      (exceptD (candidate state shard cur1 prev1 r)
        (WinningRoot.mk [] [] 0)).total_attesting_balance =
      (exceptD (candidate state shard cur2 prev2 r)
        (WinningRoot.mk [] [] 0)).total_attesting_balance ∧
      (exceptD (candidate state shard cur1 prev1 r)
        (WinningRoot.mk [] [] 0)).crosslink_data_root =
      (exceptD (candidate state shard cur2 prev2 r)
        (WinningRoot.mk [] [] 0)).crosslink_data_root := by
    intro r hr
    rcases (except_isOk_iff _).mp (hok1 r ((hmem r).mpr hr)) with ⟨c1, hc1⟩
    rcases (except_isOk_iff _).mp (hok2 r hr) with ⟨c2, hc2⟩
    rw [hc1, hc2]
    exact candidate_key_perm hc hp hc1 hc2
  have stepB : resultKey (enum2.foldl (fun b r => updateBest b
      (exceptD (candidate state shard cur1 prev1 r) (WinningRoot.mk [] [] 0))) none) =
      resultKey (enum2.foldl (fun b r => updateBest b
        (exceptD (candidate state shard cur2 prev2 r) (WinningRoot.mk [] [] 0))) none) :=
    foldl_updateBest_key_congr hkey rfl
  rw [← h1, ← h2]
  exact stepA.trans stepB

/-- C1 witness: the previous-epoch list is permuted and the two root enumerations
are reversed; both runs elect root `[2]` with balance `20` (the index lists
differ only in order). -/
theorem C1_winner_unique_order_independent_witness :
    resultKey (some (WinningRoot.mk [2] [0, 1] 20)) =
      resultKey (some (WinningRoot.mk [2] [1, 0] 20)) :=
  C1_winner_unique_order_independent
    (BeaconState.mk (fun _ => 10) (fun _ b => .ok (if b = [] then [0] else [1]))) 1
    [PendingAttestation.mk (AttestationData.mk 1 [1]) []]
    [PendingAttestation.mk (AttestationData.mk 1 [2]) [],
      PendingAttestation.mk (AttestationData.mk 1 [2]) [true]]
    [PendingAttestation.mk (AttestationData.mk 1 [1]) []]
    [PendingAttestation.mk (AttestationData.mk 1 [2]) [true],
      PendingAttestation.mk (AttestationData.mk 1 [2]) []]
    [[1], [2]] [[2], [1]]
    (some (WinningRoot.mk [2] [0, 1] 20)) (some (WinningRoot.mk [2] [1, 0] 20))
    (by decide) (by decide) (by decide) (by decide) (by rfl) (by rfl)

end Lighthouse
